import Mathlib

/-!
Verification of the rust-mount-watch repository against its specification.

The development shallowly embeds the Rust sources:
* `src/mount.rs`  — parsing of the mount table (`LinuxMount::parse`,
  `parse_proc_mounts`, `read_proc_mounts`);
* `src/watch.rs`  — the coalescing state machine (`State::check_diff`,
  `State::start_coalescing`) and the polling loop (`watch_mounts`);
* `src/callback.rs` — the `coalesce` callback adapter.

Strings are modelled as `List Char` (the `.data` of a `String`), machine
integers as `Nat` with explicit bounds, sets of mounts as `Finset`, and the
stateful `FnMut` callback as pure code `σ → MountEvent → WatchControl × σ`
together with its captured mutable state of type `σ`.
-/

namespace MountWatch

/-- Decidable equality for `Except`, used to evaluate the model on concrete
inputs. -/
instance {ε α : Type} [DecidableEq ε] [DecidableEq α] : DecidableEq (Except ε α) :=
  fun a b =>
    match a, b with
    | .ok x, .ok y =>
      if h : x = y then .isTrue (by rw [h])
      else .isFalse (by intro hc; cases hc; exact h rfl)
    | .error x, .error y =>
      if h : x = y then .isTrue (by rw [h])
      else .isFalse (by intro hc; cases hc; exact h rfl)
    | .ok _, .error _ => .isFalse (by intro hc; cases hc)
    | .error _, .ok _ => .isFalse (by intro hc; cases hc)

/-! ## Character-level utilities mirroring the Rust standard library -/

/-- Rust `char::is_ascii_whitespace`: space, tab, line feed, form feed,
carriage return. -/
def isAsciiWhitespace (c : Char) : Bool :=
  c = ' ' || c = '\t' || c = '\n' || c = '\x0C' || c = '\r'

/-- Rust `char::is_ascii_digit`. -/
def isAsciiDigit (c : Char) : Bool :=
  '0' ≤ c && c ≤ '9'

/-- Numeric value of an ASCII digit. -/
def digitVal (c : Char) : Nat := c.toNat - Char.toNat '0'

/-- Value of a string of ASCII digits, most significant digit first. -/
def digitsToNat (l : List Char) : Nat :=
  l.foldl (fun acc c => acc * 10 + digitVal c) 0

/-- Rust `str::parse::<u32>()`: an optional leading plus sign followed by a
nonempty run of ASCII digits whose value fits in 32 bits; anything else is an
error (`None`). -/
def parseU32 (s : List Char) : Option Nat :=
  let t := if s.head? = some '+' then s.tail else s
  if t ≠ [] ∧ t.all isAsciiDigit then
    let n := digitsToNat t
    if n < 2 ^ 32 then some n else none
  else none

/-- Rust `str::split(',')`: pieces between commas, empty pieces kept. -/
def splitComma : List Char → List (List Char)
  | [] => [[]]
  | c :: rest =>
    match splitComma rest with
    | [] => [[]]
    | g :: gs => if c = ',' then [] :: g :: gs else (c :: g) :: gs

/-- Helper for `splitWs`: `acc` is the current token, reversed. -/
def splitWsAux : List Char → List Char → List (List Char)
  | [], acc => if acc = [] then [] else [acc.reverse]
  | c :: rest, acc =>
    if isAsciiWhitespace c then
      if acc = [] then splitWsAux rest []
      else acc.reverse :: splitWsAux rest []
    else splitWsAux rest (c :: acc)

/-- Rust `str::split_ascii_whitespace`: the maximal nonempty runs of
non-whitespace characters. -/
def splitWs (l : List Char) : List (List Char) :=
  splitWsAux l []

/-- Rust `str::trim_start_matches(|c| c.is_ascii_whitespace())`. -/
def trimStart (l : List Char) : List Char :=
  l.dropWhile isAsciiWhitespace

/-- Helper for `linesOf`: `acc` holds the current line, reversed.  A line
terminated by a newline has one trailing carriage return stripped (the
terminator was the sequence CR LF); the final unterminated line keeps any
trailing carriage return, exactly as Rust `str::lines`. -/
def linesOfAux : List Char → List Char → List (List Char)
  | [], acc => if acc = [] then [] else [acc.reverse]
  | '\n' :: rest, acc =>
    (match acc with
      | '\r' :: a => a.reverse
      | _ => acc.reverse) :: linesOfAux rest []
  | c :: rest, acc => linesOfAux rest (c :: acc)

/-- Rust `str::lines`. -/
def linesOf (content : List Char) : List (List Char) :=
  linesOfAux content []

/-! ## `src/mount.rs` -/

/-- A mounted filesystem (`LinuxMount`, mount.rs lines 16-23).  The two
numeric fields are `u32` in Rust; here they are `Nat`, with the 32-bit bound
enforced by `parseU32` at parse time. -/
structure LinuxMount where
  spec : List Char
  mount_point : List Char
  fs_type : List Char
  mount_options : List (List Char)
  dump_fs_freq : Nat
  fsck_fs_passno : Nat
deriving DecidableEq, Repr

/-- Error while parsing a mount line (`ParseError`, mount.rs lines 28-30);
`input` is the offending line as passed to `LinuxMount::parse`. -/
structure ParseError where
  input : List Char
deriving DecidableEq, Repr

/-- `LinuxMount::parse` (mount.rs lines 44-60): takes the first six
whitespace-separated fields of the line (further fields, if any, are ignored
by the iterator), splits the fourth on commas and parses the fifth and sixth
as `u32`. -/
def LinuxMount.parse (line : List Char) : Option LinuxMount :=
  match splitWs line with
  | spec :: mount_point :: fs_type :: opts :: freq :: passno :: _rest =>
    match parseU32 freq, parseU32 passno with
    | some f, some p =>
      some ⟨spec, mount_point, fs_type, splitComma opts, f, p⟩
    | _, _ => none
  | _ => none

/-- The per-line loop of `parse_proc_mounts` (mount.rs lines 78-87): each
line is trimmed of leading ASCII whitespace; empty lines and lines starting
with a hash sign are skipped; any other line must parse, otherwise the whole
run aborts with a `ParseError` carrying the trimmed line.  `buf` is the
accumulator vector passed by the caller. -/
def parse_mounts_lines : List (List Char) → List LinuxMount → Except ParseError (List LinuxMount)
  | [], buf => .ok buf
  | line :: rest, buf =>
    let t := trimStart line
    if t = [] ∨ t.head? = some '#' then parse_mounts_lines rest buf
    else
      match LinuxMount.parse t with
      | some m => parse_mounts_lines rest (buf ++ [m])
      | none => .error ⟨t⟩

/-- `parse_proc_mounts` (mount.rs lines 74-88), started with an empty
buffer as in `read_proc_mounts`. -/
def parse_proc_mounts (content : List Char) : Except ParseError (List LinuxMount) :=
  parse_mounts_lines (linesOf content) []

/-- `read_proc_mounts` (mount.rs lines 64-71).  The rewind-and-read of the
virtual file is modelled by receiving the file's current text `content`
directly; the I/O error branch of `ReadError` is outside the embedding, so a
read either parses fully or fails with the parse error. -/
def read_proc_mounts (content : List Char) : Except ParseError (List LinuxMount) :=
  parse_proc_mounts content

/-! ## `src/watch.rs` -/

/-- Event generated when the mounted filesystems change (`MountEvent`,
watch.rs lines 109-124).  The Rust struct holds `Vec`s collected from
`HashSet::difference`, whose iteration order is unspecified; the model keeps
them as the finite sets themselves. -/
structure MountEvent where
  mounted : Finset LinuxMount
  unmounted : Finset LinuxMount
  coalesced : Bool
  initial : Bool
deriving DecidableEq

/-- Value returned by the event handler (`WatchControl`, watch.rs lines
127-137); the `Duration` of `Coalesce` is modelled as a `Nat`. -/
inductive WatchControl where
  | Continue
  | Stop
  | Coalesce (delay : Nat)
deriving DecidableEq, Repr

/-- The two set differences computed by `check_diff` (watch.rs lines
183-184): `added` = current minus previous, `removed` = previous minus
current. -/
def diff (previous current : Finset LinuxMount) : Finset LinuxMount × Finset LinuxMount :=
  (current \ previous, previous \ current)

/-- The watcher state (`State`, watch.rs lines 144-149).  The Rust struct
owns `callback: F`, a stateful `FnMut` closure; the model splits it into
pure code (passed to each operation) and its captured mutable state
`cb_state : σ` stored here.  The coalescing timer is reduced to the delay it
was last armed with. -/
structure State (σ : Type) where
  known_mounts : Finset LinuxMount
  cb_state : σ
  coalesce_timer : Option Nat
  coalescing : Bool
deriving DecidableEq

/-- `State::new` (watch.rs lines 152-159): empty known set, no timer, not
coalescing. -/
def State.new {σ : Type} (s : σ) : State σ :=
  ⟨∅, s, none, false⟩

/-- `State::check_diff` (watch.rs lines 161-212).  The file read is modelled
by passing the current text of `/proc/mounts` as `content`.  `coalesced` is
true when the trigger is the coalescing-timer expiry, `initial` when this is
the pre-loop call.  The early return of the Rust code (suppress a non-timer
trigger while coalescing) becomes the first branch; otherwise the coalescing
flag is cleared if it was set, the table is read and diffed, an empty diff
is swallowed, and otherwise the callback decides; its choice is propagated
and `known_mounts` is replaced by the fresh set unless it chose
`Coalesce`. -/
def check_diff {σ : Type} (callback : σ → MountEvent → WatchControl × σ)
    (st : State σ) (content : List Char) (coalesced initial : Bool) :
    Except ParseError (WatchControl × State σ) :=
  if st.coalescing = true ∧ coalesced = false then
    .ok (WatchControl.Continue, st)
  else
    let st1 : State σ := if st.coalescing = true then { st with coalescing := false } else st
    match read_proc_mounts content with
    | .error e => .error e
    | .ok mountsList =>
      let mounts : Finset LinuxMount := mountsList.toFinset
      let mounted : Finset LinuxMount := (diff st1.known_mounts mounts).1
      let unmounted : Finset LinuxMount := (diff st1.known_mounts mounts).2
      if mounted = ∅ ∧ unmounted = ∅ then
        .ok (WatchControl.Continue, st1)
      else
        let event : MountEvent := ⟨mounted, unmounted, coalesced, initial⟩
        let res := callback st1.cb_state event
        let st2 : State σ := { st1 with cb_state := res.2 }
        let st3 : State σ :=
          match res.1 with
          | WatchControl.Coalesce _ => st2
          | _ => { st2 with known_mounts := mounts }
        .ok (res.1, st3)

/-- `State::start_coalescing` (watch.rs lines 214-243), success path: the
timer is created if needed and armed with `delay`, and the coalescing flag
is set.  Timer-creation and epoll-registration failures are OS-level and
outside the embedding. -/
def start_coalescing {σ : Type} (st : State σ) (delay : Nat) : State σ :=
  { st with coalesce_timer := some delay, coalescing := true }

/-- One handling of a `check_diff` outcome by the loop (watch.rs lines
275-281 and 300-306): a `Coalesce` decision makes the loop arm the timer via
`start_coalescing`, the other decisions leave the state as returned. -/
def loop_step {σ : Type} (callback : σ → MountEvent → WatchControl × σ)
    (st : State σ) (isTimer : Bool) (content : List Char) :
    Except ParseError (WatchControl × State σ) :=
  match check_diff callback st content isTimer false with
  | .error e => .error e
  | .ok (r, st1) =>
    match r with
    | WatchControl.Coalesce delay => .ok (r, start_coalescing st1 delay)
    | _ => .ok (r, st1)

/-- The wait loop of `watch_mounts` (watch.rs lines 283-311) over a finite
schedule of wake-ups.  Each wake-up that carries an event is a pair of the
token comparison `event.token() == TIMER_TOKEN` and the text of
`/proc/mounts` at that moment; timeout wake-ups, which do nothing observable
in the loop body, are omitted from the schedule, and the stop flag (a
cross-thread signal) is outside the embedding.  `Continue` keeps looping,
`Stop` breaks, `Coalesce` arms the timer and keeps looping; a read error
aborts the loop. -/
def run_loop {σ : Type} (callback : σ → MountEvent → WatchControl × σ)
    (st : State σ) : List (Bool × List Char) → Except ParseError (State σ)
  | [] => .ok st
  | (isTimer, content) :: rest =>
    match loop_step callback st isTimer content with
    | .error e => .error e
    | .ok (WatchControl.Stop, st1) => .ok st1
    | .ok (_, st1) => run_loop callback st1 rest

/-- The body of the polling thread (`poll_loop` in `watch_mounts`, watch.rs
lines 269-313): one initial `check_diff` with `coalesced = false` and
`initial = true` before the loop (a `Stop` decision there returns at once, a
`Coalesce` decision arms the timer), then the wait loop. -/
def watch_run {σ : Type} (callback : σ → MountEvent → WatchControl × σ)
    (st : State σ) (init : List Char) (wakeups : List (Bool × List Char)) :
    Except ParseError (State σ) :=
  match check_diff callback st init false true with
  | .error e => .error e
  | .ok (WatchControl.Continue, st1) => run_loop callback st1 wakeups
  | .ok (WatchControl.Stop, st1) => .ok st1
  | .ok (WatchControl.Coalesce delay, st1) => run_loop callback (start_coalescing st1 delay) wakeups

/-- Outcome of the polling closure for a given schedule: `Ok(())` on normal
termination, or the fatal error that terminated it (watch.rs line 269 and
312). -/
def poll_loop_result {σ : Type} (callback : σ → MountEvent → WatchControl × σ)
    (s0 : σ) (init : List Char) (wakeups : List (Bool × List Char)) :
    Except ParseError Unit :=
  match watch_run callback (State.new s0) init wakeups with
  | .error e => .error e
  | .ok _ => .ok ()

/-- The closure passed to `thread::spawn` (watch.rs lines 316-320): it runs
the polling loop and, if that failed, logs the error and terminates
normally.  The first component is the logged error, the second the value the
thread terminates with. -/
def thread_body (loop_result : Except ParseError Unit) : Option ParseError × Unit :=
  match loop_result with
  | .error e => (some e, ())
  | .ok () => (none, ())

/-- What `MountWatcher::stop` and `MountWatcher::join` (watch.rs lines
90-97) receive from `JoinHandle::join`: the spawned closure never panics on
a fatal loop error (it logs it, see `thread_body`), so the join yields `Ok`
of the thread's unit value whatever the loop result was. -/
def join_result (loop_result : Except ParseError Unit) : Except ParseError Unit :=
  .ok (thread_body loop_result).2

/-! ## `src/callback.rs` -/

/-- How `callback::coalesce` handles the initial event (`CoalesceInitial`,
callback.rs lines 9-14). -/
inductive CoalesceInitial where
  | Coalesce
  | PassImmediately
deriving DecidableEq

/-- `callback::coalesce` (callback.rs lines 44-60): the returned closure
asks for coalescing — without calling `f` — whenever the event is not itself
coalesced (and, in `PassImmediately` mode, not initial either); otherwise it
defers to `f`.  Like `check_diff`, the inner `FnMut` is modelled as pure
code over an explicit state `σ`. -/
def coalesce {σ : Type} (delay : Nat) (initial_event : CoalesceInitial)
    (f : σ → MountEvent → WatchControl × σ) : σ → MountEvent → WatchControl × σ :=
  fun s event =>
    let c : Bool :=
      match initial_event with
      | CoalesceInitial.Coalesce => ! event.coalesced
      | CoalesceInitial.PassImmediately => ! (event.coalesced || event.initial)
    if c then (WatchControl.Coalesce delay, s) else f s event

/-! ## Callback instrumentation used by the theorems -/

/-- A recording callback: decides via `g` and appends every event it is
invoked on to its state.  Used to reason about which events are actually
delivered to the handler. -/
def recCb (g : MountEvent → WatchControl) :
    List MountEvent → MountEvent → WatchControl × List MountEvent :=
  fun log e => (g e, log ++ [e])

/-- A counting callback: decides via `g` and counts its invocations. -/
def cntCb (g : MountEvent → WatchControl) : Nat → MountEvent → WatchControl × Nat :=
  fun n e => (g e, n + 1)

/-! ## Characterization lemmas for `check_diff` -/

/-- Clearing the coalescing flag, whether or not it was set, yields the
state with `coalescing = false` and all other fields untouched. -/
lemma clear_flag_eq {σ : Type} (st : State σ) :
    (if st.coalescing = true then { st with coalescing := false } else st) =
      (⟨st.known_mounts, st.cb_state, st.coalesce_timer, false⟩ : State σ) := by
  cases st with
  | mk k c t f => cases f <;> simp

/-- While coalescing, a non-timer trigger is suppressed: `Continue`, state
untouched, nothing read, callback not consulted. -/
lemma check_diff_suppress {σ : Type} (cb : σ → MountEvent → WatchControl × σ)
    (st : State σ) (content : List Char) (ini : Bool)
    (h1 : st.coalescing = true) :
    check_diff cb st content false ini = .ok (WatchControl.Continue, st) := by
  unfold check_diff
  rw [if_pos ⟨h1, rfl⟩]

/-- When the trigger proceeds to the read and the fresh set equals the known
set, the wake-up is swallowed: `Continue`, known set and callback state kept,
only the coalescing flag cleared. -/
lemma check_diff_empty {σ : Type} (cb : σ → MountEvent → WatchControl × σ)
    (st : State σ) (content : List Char) (co ini : Bool) (l : List LinuxMount)
    (hco : st.coalescing = true → co = true)
    (hread : read_proc_mounts content = .ok l)
    (heq : l.toFinset = st.known_mounts) :
    check_diff cb st content co ini =
      .ok (WatchControl.Continue,
        (⟨st.known_mounts, st.cb_state, st.coalesce_timer, false⟩ : State σ)) := by
  have hcond : ¬(st.coalescing = true ∧ co = false) := by
    rintro ⟨ha, hb⟩
    rw [hco ha] at hb
    cases hb
  unfold check_diff
  rw [if_neg hcond, clear_flag_eq, hread]
  simp [diff, ← heq, Finset.sdiff_self]

/-- When the trigger proceeds to the read and the fresh set differs from the
known set, the callback is invoked on the diff event; the known set is
replaced by the fresh set unless the callback chose to coalesce. -/
lemma check_diff_invoke {σ : Type} (cb : σ → MountEvent → WatchControl × σ)
    (st : State σ) (content : List Char) (co ini : Bool) (l : List LinuxMount)
    (hco : st.coalescing = true → co = true)
    (hread : read_proc_mounts content = .ok l)
    (hne : l.toFinset ≠ st.known_mounts) :
    check_diff cb st content co ini =
      .ok ((cb st.cb_state ⟨l.toFinset \ st.known_mounts, st.known_mounts \ l.toFinset, co, ini⟩).1,
        match (cb st.cb_state ⟨l.toFinset \ st.known_mounts, st.known_mounts \ l.toFinset, co, ini⟩).1 with
        | WatchControl.Coalesce _ =>
          (⟨st.known_mounts,
            (cb st.cb_state ⟨l.toFinset \ st.known_mounts, st.known_mounts \ l.toFinset, co, ini⟩).2,
            st.coalesce_timer, false⟩ : State σ)
        | _ =>
          (⟨l.toFinset,
            (cb st.cb_state ⟨l.toFinset \ st.known_mounts, st.known_mounts \ l.toFinset, co, ini⟩).2,
            st.coalesce_timer, false⟩ : State σ)) := by
  have hcond : ¬(st.coalescing = true ∧ co = false) := by
    rintro ⟨ha, hb⟩
    rw [hco ha] at hb
    cases hb
  have hguard : ¬(l.toFinset \ st.known_mounts = ∅ ∧ st.known_mounts \ l.toFinset = ∅) := by
    rintro ⟨ha, hb⟩
    exact hne (le_antisymm (Finset.sdiff_eq_empty_iff_subset.mp ha)
      (Finset.sdiff_eq_empty_iff_subset.mp hb))
  unfold check_diff
  rw [if_neg hcond, clear_flag_eq, hread]
  simp only [diff]
  rw [if_neg hguard]

/-! ## Claim theorems: diff algebra, suppression, coalesce adapter, u32 bounds -/

lemma parseU32_digits (d : List Char) (hne : d ≠ []) (hd : d.all isAsciiDigit = true) :
    parseU32 d = if digitsToNat d < 2 ^ 32 then some (digitsToNat d) else none := by
  cases d with
  | nil => exact absurd rfl hne
  | cons c cs =>
    have hc : isAsciiDigit c = true := by
      rw [List.all_cons, Bool.and_eq_true] at hd
      exact hd.1
    have hcp : ¬((c :: cs).head? = some '+') := by
      simp only [List.head?_cons, Option.some.injEq]
      intro h
      subst h
      exact absurd hc (by decide)
    unfold parseU32
    rw [if_neg hcp, if_pos ⟨hne, hd⟩]

lemma parse_at_six_fields (line a b c o d p : List Char) (rest : List (List Char))
    (hsplit : splitWs line = a :: b :: c :: o :: d :: p :: rest) :
    LinuxMount.parse line =
      match parseU32 d, parseU32 p with
      | some f, some pv => some ⟨a, b, c, splitComma o, f, pv⟩
      | _, _ => none := by
  unfold LinuxMount.parse
  rw [hsplit]

/-- Claim C10: on a line with at least six fields whose fifth and sixth
fields are digit strings, the line parses exactly when both values are below
`2 ^ 32`, and a fifth or sixth field whose value is at least `2 ^ 32`
produces a parse failure. -/
theorem u32_fields_bound :
    ∀ (line a b c o d p : List Char) (rest : List (List Char)),
      splitWs line = a :: b :: c :: o :: d :: p :: rest →
      d ≠ [] → d.all isAsciiDigit = true →
      p ≠ [] → p.all isAsciiDigit = true →
      ((LinuxMount.parse line).isSome ↔
        digitsToNat d < 2 ^ 32 ∧ digitsToNat p < 2 ^ 32) ∧
      (2 ^ 32 ≤ digitsToNat d ∨ 2 ^ 32 ≤ digitsToNat p →
        LinuxMount.parse line = none) := by
  intro line a b c o d p rest hsplit hd1 hd2 hp1 hp2
  rw [parse_at_six_fields line a b c o d p rest hsplit,
    parseU32_digits d hd1 hd2, parseU32_digits p hp1 hp2]
  constructor
  · by_cases h1 : digitsToNat d < 2 ^ 32 <;> by_cases h2 : digitsToNat p < 2 ^ 32
    · rw [if_pos h1, if_pos h2]
      simp only [Option.isSome_some]
      constructor
      · intro hx
        exact ⟨h1, h2⟩
      · intro hx
        trivial
    · rw [if_pos h1, if_neg h2]
      simp
      omega
    · rw [if_neg h1, if_pos h2]
      simp
      omega
    · rw [if_neg h1, if_neg h2]
      simp
      omega
  · intro h
    by_cases h1 : digitsToNat d < 2 ^ 32 <;> by_cases h2 : digitsToNat p < 2 ^ 32
    · omega
    · rw [if_pos h1, if_neg h2]
    · rw [if_neg h1]
    · rw [if_neg h1]

/-- Witness for C10 at the boundary values `4294967296` and
`4294967295`. -/
theorem u32_fields_bound_witness :
    LinuxMount.parse "a b c d 4294967296 0".data = none ∧
    (LinuxMount.parse "a b c d 4294967295 0".data).isSome = true := by
  constructor
  · exact (u32_fields_bound "a b c d 4294967296 0".data
      "a".data "b".data "c".data "d".data "4294967296".data "0".data []
      (by decide) (by decide) (by decide) (by decide) (by decide)).2
      (Or.inl (by decide))
  · exact ((u32_fields_bound "a b c d 4294967295 0".data
      "a".data "b".data "c".data "d".data "4294967295".data "0".data []
      (by decide) (by decide) (by decide) (by decide) (by decide)).1).mpr
      ⟨by decide, by decide⟩

/-! ## Claim theorems: line shape and first-error abort of the parser -/

lemma parse_mounts_single (line : List Char) (buf : List LinuxMount) :
    parse_mounts_lines [line] buf =
      if trimStart line = [] ∨ (trimStart line).head? = some '#' then .ok buf
      else
        match LinuxMount.parse (trimStart line) with
        | some m => .ok (buf ++ [m])
        | none => .error ⟨trimStart line⟩ := by
  simp only [parse_mounts_lines]

lemma parse_some_iff (line : List Char) :
    (∃ m, LinuxMount.parse line = some m) ↔
      ∃ a b c o d p rest dv pv,
        splitWs line = a :: b :: c :: o :: d :: p :: rest ∧
        parseU32 d = some dv ∧ parseU32 p = some pv := by
  constructor
  · rintro ⟨m, hm⟩
    unfold LinuxMount.parse at hm
    split at hm
    next a b c o d p rest heq =>
      split at hm
      next f pv hf hp => exact ⟨a, b, c, o, d, p, rest, f, pv, heq, hf, hp⟩
      next => cases hm
    next => cases hm
  · rintro ⟨a, b, c, o, d, p, rest, dv, pv, h1, h2, h3⟩
    rw [parse_at_six_fields line a b c o d p rest h1, h2, h3]
    exact ⟨_, rfl⟩

/-- Claim C5, amended: a line is skipped (not an error) iff, after
stripping leading ASCII whitespace, it is empty or begins with a hash sign;
every other line parses into a record iff it splits into at least six
whitespace-separated fields (fields beyond the sixth are ignored) with the
fifth and sixth parsing as 32-bit non-negative integers, the fourth being
split on commas into the options; a violating line produces a `ParseError`
carrying the line after the leading-whitespace strip. -/
theorem line_parse_shape :
    ∀ (line : List Char) (buf : List LinuxMount),
      (trimStart line = [] ∨ (trimStart line).head? = some '#' →
        parse_mounts_lines [line] buf = .ok buf) ∧
      (¬(trimStart line = [] ∨ (trimStart line).head? = some '#') →
        ((∃ m, parse_mounts_lines [line] buf = .ok (buf ++ [m])) ↔
          ∃ a b c o d p rest dv pv,
            splitWs (trimStart line) = a :: b :: c :: o :: d :: p :: rest ∧
            parseU32 d = some dv ∧ parseU32 p = some pv) ∧
        (∀ a b c o d p rest dv pv,
          splitWs (trimStart line) = a :: b :: c :: o :: d :: p :: rest →
          parseU32 d = some dv → parseU32 p = some pv →
          parse_mounts_lines [line] buf =
            .ok (buf ++ [⟨a, b, c, splitComma o, dv, pv⟩])) ∧
        (LinuxMount.parse (trimStart line) = none →
          parse_mounts_lines [line] buf = .error ⟨trimStart line⟩)) := by
  intro line buf
  constructor
  · intro h
    rw [parse_mounts_single, if_pos h]
  · intro h
    rw [parse_mounts_single, if_neg h]
    refine ⟨?_, ?_, ?_⟩
    · constructor
      · rintro ⟨m, hm⟩
        cases hp : LinuxMount.parse (trimStart line) with
        | some m2 => exact (parse_some_iff (trimStart line)).mp ⟨m2, hp⟩
        | none =>
          rw [hp] at hm
          cases hm
      · rintro ⟨a, b, c, o, d, p, rest, dv, pv, h1, h2, h3⟩
        rw [parse_at_six_fields (trimStart line) a b c o d p rest h1, h2, h3]
        exact ⟨_, rfl⟩
    · intro a b c o d p rest dv pv h1 h2 h3
      rw [parse_at_six_fields (trimStart line) a b c o d p rest h1, h2, h3]
    · intro hp
      rw [hp]

/-- Counterexample to claim C5 as stated: the line
`a b c d 0 0 extrafield` splits into seven whitespace-separated fields, not
six, yet parses into a record; and the error for the malformed line
`  bad bad` carries the line with its leading whitespace stripped, which
differs from the raw line. -/
theorem exactly_six_fields_counterexample :
    (splitWs "a b c d 0 0 extrafield".data).length = 7 ∧
    (∃ m, LinuxMount.parse "a b c d 0 0 extrafield".data = some m) ∧
    parse_mounts_lines ["  bad bad".data] [] = .error ⟨"bad bad".data⟩ ∧
    "bad bad".data ≠ "  bad bad".data := by
  refine ⟨by decide,
    ⟨⟨"a".data, "b".data, "c".data, ["d".data], 0, 0⟩, by decide⟩,
    by decide, by decide⟩

/-- Witness for C5 on a concrete six-field line. -/
theorem line_parse_shape_witness :
    parse_mounts_lines ["sysfs /sys sysfs rw,relatime 0 0".data] [] =
      .ok ([] ++ [⟨"sysfs".data, "/sys".data, "sysfs".data,
        splitComma "rw,relatime".data, 0, 0⟩]) :=
  ((line_parse_shape "sysfs /sys sysfs rw,relatime 0 0".data []).2 (by decide)).2.1
    "sysfs".data "/sys".data "sysfs".data "rw,relatime".data "0".data "0".data [] 0 0
    (by decide) (by decide) (by decide)

lemma parse_mounts_lines_error (line : List Char) (post : List (List Char))
    (hskip : ¬(trimStart line = [] ∨ (trimStart line).head? = some '#'))
    (hbad : LinuxMount.parse (trimStart line) = none) :
    ∀ (pre : List (List Char)) (buf : List LinuxMount),
      (∀ l ∈ pre, trimStart l = [] ∨ (trimStart l).head? = some '#' ∨
        (LinuxMount.parse (trimStart l)).isSome = true) →
      parse_mounts_lines (pre ++ line :: post) buf = .error ⟨trimStart line⟩ := by
  intro pre
  induction pre with
  | nil =>
    intro buf hgood
    simp only [List.nil_append, parse_mounts_lines]
    rw [if_neg hskip, hbad]
  | cons l ls ih =>
    intro buf hgood
    have hl := hgood l (List.mem_cons_self l ls)
    simp only [List.cons_append, parse_mounts_lines]
    by_cases hc : trimStart l = [] ∨ (trimStart l).head? = some '#'
    · rw [if_pos hc]
      exact ih buf (fun x hx => hgood x (List.mem_cons_of_mem l hx))
    · rw [if_neg hc]
      rcases hl with h | h | h
      · exact absurd (Or.inl h) hc
      · exact absurd (Or.inr h) hc
      · obtain ⟨m, hm⟩ := Option.isSome_iff_exists.mp h
        rw [hm]
        exact ih (buf ++ [m]) (fun x hx => hgood x (List.mem_cons_of_mem l hx))

/-- Claim C6: when the mount-table text contains a malformed non-skipped
line, and every line before it is skipped or parses, the whole parse aborts
with a `ParseError` identifying exactly that line (whatever follows it), and
the read returns no record sequence at all. -/
theorem first_malformed_line_aborts :
    ∀ (content : List Char) (pre : List (List Char)) (line : List Char)
      (post : List (List Char)),
      linesOf content = pre ++ line :: post →
      (∀ l ∈ pre, trimStart l = [] ∨ (trimStart l).head? = some '#' ∨
        (LinuxMount.parse (trimStart l)).isSome = true) →
      ¬(trimStart line = [] ∨ (trimStart line).head? = some '#') →
      LinuxMount.parse (trimStart line) = none →
      parse_proc_mounts content = .error ⟨trimStart line⟩ ∧
      ∀ ms, read_proc_mounts content ≠ .ok ms := by
  intro content pre line post hlines hgood hskip hbad
  have h1 : parse_proc_mounts content = .error ⟨trimStart line⟩ := by
    unfold parse_proc_mounts
    rw [hlines]
    exact parse_mounts_lines_error line post hskip hbad pre [] hgood
  refine ⟨h1, ?_⟩
  intro ms h
  unfold read_proc_mounts at h
  rw [h1] at h
  cases h

/-- Witness for C6 on a table with one good line before the malformed
one. -/
theorem first_malformed_line_aborts_witness :
    parse_proc_mounts "sysfs /sys sysfs rw 0 0\nbadbad\nalso bad".data =
      .error ⟨"badbad".data⟩ :=
  (first_malformed_line_aborts "sysfs /sys sysfs rw 0 0\nbadbad\nalso bad".data
    ["sysfs /sys sysfs rw 0 0".data] "badbad".data ["also bad".data]
    (by decide) (by decide) (by decide) (by decide)).1

/-! ## Claim theorems: coalescing window and spurious wake-up handling -/

lemma run_loop_coalescing {σ : Type} (cb : σ → MountEvent → WatchControl × σ)
    (st : State σ) (hc : st.coalescing = true) :
    ∀ changes : List (List Char),
      run_loop cb st (changes.map fun c => (false, c)) = .ok st := by
  intro changes
  induction changes with
  | nil => rfl
  | cons c cs ih =>
    have hs : loop_step cb st false c = .ok (WatchControl.Continue, st) := by
      unfold loop_step
      rw [check_diff_suppress cb st c false hc]
    simp only [List.map_cons, run_loop, hs]
    exact ih

/-- Claim C1: first, when `check_diff` reaches the handler, the stored
last-known mount set is replaced with the freshly read set exactly when the
decision is `Continue` or `Stop`, and kept when it is `Coalesce`; second,
from a coalescing state with baseline B, any number of raw (non-timer)
triggers leave the state untouched, and the single post-expiry event's
mounted/unmounted sets are the diff between B and the set read after the
expiry, regardless of how many raw changes occurred. -/
theorem coalescing_window_baseline :
    (∀ (σ : Type) (cb : σ → MountEvent → WatchControl × σ) (st : State σ)
      (content : List Char) (coalesced initial : Bool) (l : List LinuxMount),
      (st.coalescing = true → coalesced = true) →
      read_proc_mounts content = .ok l →
      l.toFinset ≠ st.known_mounts →
      ∃ r st2, check_diff cb st content coalesced initial = .ok (r, st2) ∧
        ((∀ d, r ≠ WatchControl.Coalesce d) → st2.known_mounts = l.toFinset) ∧
        (∀ d, r = WatchControl.Coalesce d → st2.known_mounts = st.known_mounts)) ∧
    (∀ (g : MountEvent → WatchControl) (lg : List MountEvent) (B : Finset LinuxMount)
      (tm : Option Nat) (changes : List (List Char)) (final : List Char)
      (l : List LinuxMount),
      read_proc_mounts final = .ok l →
      l.toFinset ≠ B →
      run_loop (recCb g) (⟨B, lg, tm, true⟩ : State (List MountEvent))
        (changes.map fun c => (false, c)) = .ok ⟨B, lg, tm, true⟩ ∧
      ∃ r st2, loop_step (recCb g) (⟨B, lg, tm, true⟩ : State (List MountEvent)) true final =
          .ok (r, st2) ∧
        st2.cb_state = lg ++ [⟨l.toFinset \ B, B \ l.toFinset, true, false⟩]) := by
  constructor
  · intro σ cb st content coalesced initial l hco hread hne
    rw [check_diff_invoke cb st content coalesced initial l hco hread hne]
    refine ⟨_, _, rfl, ?_, ?_⟩
    · intro hnc
      cases hr : (cb st.cb_state
          ⟨l.toFinset \ st.known_mounts, st.known_mounts \ l.toFinset, coalesced, initial⟩).1 with
      | Continue => rfl
      | Stop => rfl
      | Coalesce d => exact absurd hr (hnc d)
    · intro d hd
      rw [hd]
  · intro g lg B tm changes final l hread hne
    constructor
    · exact run_loop_coalescing (recCb g) ⟨B, lg, tm, true⟩ rfl changes
    · have hcd := check_diff_invoke (recCb g) (⟨B, lg, tm, true⟩ : State (List MountEvent))
        final true false l (fun _ => rfl) hread hne
      unfold loop_step
      rw [hcd]
      simp only [recCb]
      cases hr : g ⟨l.toFinset \ B, B \ l.toFinset, true, false⟩ with
      | Continue => exact ⟨_, _, rfl, rfl⟩
      | Stop => exact ⟨_, _, rfl, rfl⟩
      | Coalesce d => exact ⟨_, _, rfl, rfl⟩

/-- Witness for C1: a raw trigger during coalescing leaves a concrete
state untouched. -/
theorem coalescing_window_baseline_witness :
    run_loop (recCb fun _ => WatchControl.Continue)
      (⟨∅, [], none, true⟩ : State (List MountEvent))
      (["x y z w 0 0".data].map fun c => (false, c)) =
      .ok ⟨∅, [], none, true⟩ :=
  ((coalescing_window_baseline.2 (fun _ => WatchControl.Continue) [] ∅ none
    ["x y z w 0 0".data] "a b c d 0 0".data
    [⟨"a".data, "b".data, "c".data, ["d".data], 0, 0⟩]
    (by decide) (by decide)).1)


lemma check_diff_error {σ : Type} (cb : σ → MountEvent → WatchControl × σ)
    (st : State σ) (content : List Char) (co ini : Bool) (e : ParseError)
    (hsup : ¬(st.coalescing = true ∧ co = false))
    (hread : read_proc_mounts content = .error e) :
    check_diff cb st content co ini = .error e := by
  unfold check_diff
  rw [if_neg hsup, hread]

lemma check_diff_log {g : MountEvent → WatchControl} (st : State (List MountEvent))
    (content : List Char) (co ini : Bool) (r : WatchControl)
    (st2 : State (List MountEvent))
    (h : check_diff (recCb g) st content co ini = .ok (r, st2)) :
    st2.cb_state = st.cb_state ∨
      ∃ e, st2.cb_state = st.cb_state ++ [e] ∧ e.initial = ini ∧ e.coalesced = co ∧
        ¬(e.mounted = ∅ ∧ e.unmounted = ∅) := by
  by_cases hsup : st.coalescing = true ∧ co = false
  · obtain ⟨h1, h2⟩ := hsup
    subst h2
    rw [check_diff_suppress (recCb g) st content ini h1] at h
    simp only [Except.ok.injEq, Prod.mk.injEq] at h
    obtain ⟨hr, hst⟩ := h
    left
    rw [← hst]
  · have hco : st.coalescing = true → co = true := by
      intro hc
      cases co
      · exact absurd ⟨hc, rfl⟩ hsup
      · rfl
    cases hread : read_proc_mounts content with
    | error e =>
      rw [check_diff_error (recCb g) st content co ini e hsup hread] at h
      cases h
    | ok l =>
      by_cases heq : l.toFinset = st.known_mounts
      · rw [check_diff_empty (recCb g) st content co ini l hco hread heq] at h
        simp only [Except.ok.injEq, Prod.mk.injEq] at h
        obtain ⟨hr, hst⟩ := h
        left
        rw [← hst]
      · rw [check_diff_invoke (recCb g) st content co ini l hco hread heq] at h
        simp only [Except.ok.injEq, Prod.mk.injEq] at h
        obtain ⟨hr, hst⟩ := h
        right
        refine ⟨⟨l.toFinset \ st.known_mounts, st.known_mounts \ l.toFinset, co, ini⟩,
          ?_, rfl, rfl, ?_⟩
        · rw [← hst]
          cases hx : (recCb g st.cb_state
              ⟨l.toFinset \ st.known_mounts, st.known_mounts \ l.toFinset, co, ini⟩).1 <;> rfl
        · rintro ⟨ha, hb⟩
          exact heq (le_antisymm (Finset.sdiff_eq_empty_iff_subset.mp ha)
            (Finset.sdiff_eq_empty_iff_subset.mp hb))

/-- Claim C3: a trigger whose diff is empty does not invoke the handler
and does not replace the last-known set (`Continue` is returned, only the
coalescing flag is cleared); every event actually delivered to the handler
has `mounted` and `unmounted` not both empty; and two consecutive triggers
with no intervening table change invoke the handler exactly once. -/
theorem empty_diff_swallowed :
    (∀ (σ : Type) (cb : σ → MountEvent → WatchControl × σ) (st : State σ)
      (content : List Char) (coalesced initial : Bool) (l : List LinuxMount),
      (st.coalescing = true → coalesced = true) →
      read_proc_mounts content = .ok l →
      l.toFinset = st.known_mounts →
      check_diff cb st content coalesced initial =
        .ok (WatchControl.Continue,
          ⟨st.known_mounts, st.cb_state, st.coalesce_timer, false⟩)) ∧
    (∀ (g : MountEvent → WatchControl) (st : State (List MountEvent))
      (content : List Char) (coalesced initial : Bool) (r : WatchControl)
      (st2 : State (List MountEvent)),
      check_diff (recCb g) st content coalesced initial = .ok (r, st2) →
      ∀ e ∈ st2.cb_state, e ∈ st.cb_state ∨ ¬(e.mounted = ∅ ∧ e.unmounted = ∅)) ∧
    (∀ (g : MountEvent → WatchControl) (st : State Nat) (content : List Char)
      (l : List LinuxMount),
      st.coalescing = false → st.cb_state = 0 →
      read_proc_mounts content = .ok l →
      l.toFinset ≠ st.known_mounts →
      ∃ r1 st1 r2 st2,
        loop_step (cntCb g) st false content = .ok (r1, st1) ∧
        loop_step (cntCb g) st1 false content = .ok (r2, st2) ∧
        st1.cb_state = 1 ∧ st2.cb_state = 1) := by
  refine ⟨?_, ?_, ?_⟩
  · intro σ cb st content coalesced initial l hco hread heq
    exact check_diff_empty cb st content coalesced initial l hco hread heq
  · intro g st content coalesced initial r st2 h e he
    rcases check_diff_log st content coalesced initial r st2 h with h1 | ⟨ev, h1, h2, h3, h4⟩
    · left
      rw [← h1]
      exact he
    · rw [h1] at he
      rcases List.mem_append.mp he with h5 | h5
      · exact Or.inl h5
      · have : e = ev := List.mem_singleton.mp h5
        subst this
        exact Or.inr h4
  · intro g st content l hc0 hcb hread hne
    have hco : st.coalescing = true → false = true := by
      intro hx
      rw [hc0] at hx
      cases hx
    have hcd1 := check_diff_invoke (cntCb g) st content false false l hco hread hne
    set ev : MountEvent :=
      ⟨l.toFinset \ st.known_mounts, st.known_mounts \ l.toFinset, false, false⟩ with hev
    cases hr : g ev with
    | Continue =>
      have hstep1 : loop_step (cntCb g) st false content =
          .ok (WatchControl.Continue,
            ⟨l.toFinset, st.cb_state + 1, st.coalesce_timer, false⟩) := by
        unfold loop_step
        rw [hcd1]
        simp only [cntCb, hr]
      have hstep2 : loop_step (cntCb g)
          (⟨l.toFinset, st.cb_state + 1, st.coalesce_timer, false⟩ : State Nat)
          false content =
          .ok (WatchControl.Continue,
            ⟨l.toFinset, st.cb_state + 1, st.coalesce_timer, false⟩) := by
        unfold loop_step
        rw [check_diff_empty (cntCb g) _ content false false l (by intro hx; cases hx) hread rfl]
      refine ⟨_, _, _, _, hstep1, hstep2, ?_, ?_⟩ <;> simp [hcb]
    | Stop =>
      have hstep1 : loop_step (cntCb g) st false content =
          .ok (WatchControl.Stop,
            ⟨l.toFinset, st.cb_state + 1, st.coalesce_timer, false⟩) := by
        unfold loop_step
        rw [hcd1]
        simp only [cntCb, hr]
      have hstep2 : loop_step (cntCb g)
          (⟨l.toFinset, st.cb_state + 1, st.coalesce_timer, false⟩ : State Nat)
          false content =
          .ok (WatchControl.Continue,
            ⟨l.toFinset, st.cb_state + 1, st.coalesce_timer, false⟩) := by
        unfold loop_step
        rw [check_diff_empty (cntCb g) _ content false false l (by intro hx; cases hx) hread rfl]
      refine ⟨_, _, _, _, hstep1, hstep2, ?_, ?_⟩ <;> simp [hcb]
    | Coalesce d =>
      have hstep1 : loop_step (cntCb g) st false content =
          .ok (WatchControl.Coalesce d,
            ⟨st.known_mounts, st.cb_state + 1, some d, true⟩) := by
        unfold loop_step
        rw [hcd1]
        simp only [cntCb, hr]
        rfl
      have hstep2 : loop_step (cntCb g)
          (⟨st.known_mounts, st.cb_state + 1, some d, true⟩ : State Nat)
          false content =
          .ok (WatchControl.Continue,
            ⟨st.known_mounts, st.cb_state + 1, some d, true⟩) := by
        unfold loop_step
        rw [check_diff_suppress (cntCb g) _ content false rfl]
      refine ⟨_, _, _, _, hstep1, hstep2, ?_, ?_⟩ <;> simp [hcb]

/-- Witness for C3: re-reading an unchanged concrete table yields
`Continue` and an untouched state. -/
theorem empty_diff_swallowed_witness :
    check_diff (cntCb fun _ => WatchControl.Continue)
      (⟨[⟨"a".data, "b".data, "c".data, ["d".data], 0, 0⟩].toFinset, 0, none, false⟩ : State Nat)
      "a b c d 0 0".data false false =
      .ok (WatchControl.Continue,
        ⟨[⟨"a".data, "b".data, "c".data, ["d".data], 0, 0⟩].toFinset, 0, none, false⟩) := by
  have h := empty_diff_swallowed.1 Nat (cntCb fun _ => WatchControl.Continue)
    ⟨[⟨"a".data, "b".data, "c".data, ["d".data], 0, 0⟩].toFinset, 0, none, false⟩
    "a b c d 0 0".data false false
    [⟨"a".data, "b".data, "c".data, ["d".data], 0, 0⟩]
    (by intro hx; cases hx) (by decide) (by decide)
  exact h

/-! ## Claim theorems: initial event and error propagation -/

lemma loop_step_log {g : MountEvent → WatchControl} (st : State (List MountEvent))
    (isTimer : Bool) (content : List Char) (r : WatchControl)
    (st2 : State (List MountEvent))
    (h : loop_step (recCb g) st isTimer content = .ok (r, st2)) :
    st2.cb_state = st.cb_state ∨
      ∃ e, st2.cb_state = st.cb_state ++ [e] ∧ e.initial = false := by
  unfold loop_step at h
  cases hcd : check_diff (recCb g) st content isTimer false with
  | error e =>
    rw [hcd] at h
    cases h
  | ok pr =>
    obtain ⟨r1, st1⟩ := pr
    rw [hcd] at h
    have hl := check_diff_log st content isTimer false r1 st1 hcd
    have hst2 : st2.cb_state = st1.cb_state := by
      cases r1 with
      | Continue =>
        simp only [Except.ok.injEq, Prod.mk.injEq] at h
        rw [← h.2]
      | Stop =>
        simp only [Except.ok.injEq, Prod.mk.injEq] at h
        rw [← h.2]
      | Coalesce d =>
        simp only [Except.ok.injEq, Prod.mk.injEq] at h
        rw [← h.2]
        rfl
    rcases hl with h1 | ⟨e, h1, h2, h3, h4⟩
    · left
      rw [hst2, h1]
    · right
      exact ⟨e, by rw [hst2, h1], h2⟩

lemma run_loop_log {g : MountEvent → WatchControl} :
    ∀ (ws : List (Bool × List Char)) (st : State (List MountEvent))
      (stF : State (List MountEvent)),
      run_loop (recCb g) st ws = .ok stF →
      ∃ tail, stF.cb_state = st.cb_state ++ tail ∧ ∀ e ∈ tail, e.initial = false := by
  intro ws
  induction ws with
  | nil =>
    intro st stF h
    injection h with h2
    subst h2
    exact ⟨[], by rw [List.append_nil], by simp⟩
  | cons w ws ih =>
    intro st stF h
    obtain ⟨isTimer, content⟩ := w
    simp only [run_loop] at h
    cases hls : loop_step (recCb g) st isTimer content with
    | error e =>
      rw [hls] at h
      cases h
    | ok pr =>
      obtain ⟨r1, st1⟩ := pr
      rw [hls] at h
      have hlog := loop_step_log st isTimer content r1 st1 hls
      cases r1 with
      | Stop =>
        injection h with h2
        subst h2
        rcases hlog with h3 | ⟨e, h3, h4⟩
        · exact ⟨[], by rw [h3, List.append_nil], by simp⟩
        · refine ⟨[e], by rw [h3], ?_⟩
          intro x hx
          rw [List.mem_singleton.mp hx]
          exact h4
      | Continue =>
        obtain ⟨tail, ht1, ht2⟩ := ih st1 stF h
        rcases hlog with h3 | ⟨e, h3, h4⟩
        · exact ⟨tail, by rw [ht1, h3], ht2⟩
        · refine ⟨e :: tail, ?_, ?_⟩
          · rw [ht1, h3, List.append_assoc, List.singleton_append]
          · intro x hx
            rcases List.mem_cons.mp hx with hx | hx
            · rw [hx]
              exact h4
            · exact ht2 x hx
      | Coalesce d =>
        obtain ⟨tail, ht1, ht2⟩ := ih st1 stF h
        rcases hlog with h3 | ⟨e, h3, h4⟩
        · exact ⟨tail, by rw [ht1, h3], ht2⟩
        · refine ⟨e :: tail, ?_, ?_⟩
          · rw [ht1, h3, List.append_assoc, List.singleton_append]
          · intro x hx
            rcases List.mem_cons.mp hx with hx | hx
            · rw [hx]
              exact h4
            · exact ht2 x hx

/-- Claim C7: for any run of the watch, the single pre-loop `check_diff`
call with `initial = true` on a nonempty table delivers the one and only
event with `initial = true` — its `mounted` is the whole table and its
`unmounted` is empty — and every event delivered by a trigger inside the
wait loop has `initial = false`. -/
theorem single_initial_event :
    ∀ (g : MountEvent → WatchControl) (init : List Char)
      (wakeups : List (Bool × List Char)) (l : List LinuxMount)
      (stF : State (List MountEvent)),
      read_proc_mounts init = .ok l →
      l ≠ [] →
      watch_run (recCb g) (State.new []) init wakeups = .ok stF →
      ∃ rest, stF.cb_state = (⟨l.toFinset, ∅, false, true⟩ : MountEvent) :: rest ∧
        (∀ e ∈ rest, e.initial = false) ∧
        stF.cb_state.countP (fun e => e.initial) = 1 := by
  intro g init ws l stF hread hne hrun
  have hne2 : l.toFinset ≠ (State.new ([] : List MountEvent)).known_mounts := by
    intro h
    cases l with
    | nil => exact hne rfl
    | cons x xs =>
      have hx : x ∈ (x :: xs).toFinset := by simp
      rw [h] at hx
      exact absurd hx (Finset.not_mem_empty x)
  unfold watch_run at hrun
  rw [check_diff_invoke (recCb g) (State.new []) init false true l
    (by intro hx; cases hx) hread hne2] at hrun
  have hev : (⟨l.toFinset \ (State.new ([] : List MountEvent)).known_mounts,
      (State.new ([] : List MountEvent)).known_mounts \ l.toFinset, false, true⟩ : MountEvent) =
      ⟨l.toFinset, ∅, false, true⟩ := by
    simp [State.new, Finset.sdiff_empty, Finset.empty_sdiff]
  rw [hev] at hrun
  simp only [recCb] at hrun
  set ev : MountEvent := ⟨l.toFinset, ∅, false, true⟩ with hev2
  have hfinish : ∀ rest, stF.cb_state = ev :: rest → (∀ e ∈ rest, e.initial = false) →
      ∃ rest, stF.cb_state = ev :: rest ∧ (∀ e ∈ rest, e.initial = false) ∧
        stF.cb_state.countP (fun e => e.initial) = 1 := by
    intro rest h1 h2
    refine ⟨rest, h1, h2, ?_⟩
    rw [h1]
    rw [List.countP_cons]
    have : List.countP (fun e => e.initial) rest = 0 := by
      rw [List.countP_eq_zero]
      intro a ha
      rw [h2 a ha]
      exact Bool.false_ne_true
    rw [this]
    rfl
  cases hr : g ev with
  | Continue =>
    rw [hr] at hrun
    obtain ⟨tail, ht1, ht2⟩ := run_loop_log ws _ stF hrun
    exact hfinish tail (by rw [ht1]; rfl) ht2
  | Stop =>
    rw [hr] at hrun
    injection hrun with h2
    subst h2
    exact hfinish [] rfl (by simp)
  | Coalesce d =>
    rw [hr] at hrun
    obtain ⟨tail, ht1, ht2⟩ := run_loop_log ws _ stF hrun
    exact hfinish tail (by rw [ht1]; rfl) ht2


/-- Witness for C7 on a one-entry table with an empty wake-up
schedule. -/
theorem single_initial_event_witness :
    ∃ rest,
      ((⟨[(⟨"a".data, "b".data, "c".data, ["d".data], 0, 0⟩ : LinuxMount)].toFinset,
        [⟨[(⟨"a".data, "b".data, "c".data, ["d".data], 0, 0⟩ : LinuxMount)].toFinset,
          ∅, false, true⟩], none, false⟩ : State (List MountEvent)).cb_state) =
        (⟨[(⟨"a".data, "b".data, "c".data, ["d".data], 0, 0⟩ : LinuxMount)].toFinset,
          ∅, false, true⟩ : MountEvent) :: rest ∧
      (∀ e ∈ rest, e.initial = false) ∧
      ((⟨[(⟨"a".data, "b".data, "c".data, ["d".data], 0, 0⟩ : LinuxMount)].toFinset,
        [⟨[(⟨"a".data, "b".data, "c".data, ["d".data], 0, 0⟩ : LinuxMount)].toFinset,
          ∅, false, true⟩], none, false⟩ : State (List MountEvent)).cb_state).countP
        (fun e => e.initial) = 1 :=
  single_initial_event (fun _ => WatchControl.Continue) "a b c d 0 0".data []
    [⟨"a".data, "b".data, "c".data, ["d".data], 0, 0⟩]
    ⟨[(⟨"a".data, "b".data, "c".data, ["d".data], 0, 0⟩ : LinuxMount)].toFinset,
      [⟨[(⟨"a".data, "b".data, "c".data, ["d".data], 0, 0⟩ : LinuxMount)].toFinset,
        ∅, false, true⟩], none, false⟩
    (by decide) (by decide) (by decide)

/-- Claim C8, amended: a steady-state fatal failure of the loop is only
logged inside the worker thread (`thread_body` records it) and does not
surface to the caller: the value `stop()`/`join()` observe is `Ok ()`
whatever the loop result was. -/
theorem error_logged_not_propagated :
    ∀ (r : Except ParseError Unit),
      join_result r = .ok () ∧ (∀ e, r = .error e → thread_body r = (some e, ())) := by
  intro r
  constructor
  · rfl
  · intro e he
    subst he
    rfl

/-- Counterexample to claim C8 as stated: on a table whose text is the
malformed line `badbad`, the polling loop terminates with a fatal
`ParseError`, yet the value observed by `stop()`/`join()` is `Ok ()` — the
fatal failure is logged by the thread closure, not propagated to the
caller. -/
theorem error_propagation_counterexample :
    poll_loop_result (fun (s : Unit) _ => (WatchControl.Continue, s)) () "badbad".data [] =
      .error ⟨"badbad".data⟩ ∧
    join_result (poll_loop_result (fun (s : Unit) _ => (WatchControl.Continue, s)) ()
      "badbad".data []) = .ok () ∧
    thread_body (poll_loop_result (fun (s : Unit) _ => (WatchControl.Continue, s)) ()
      "badbad".data []) = (some ⟨"badbad".data⟩, ()) := by
  refine ⟨by decide, rfl, by decide⟩

/-- Witness for C8 at a concrete fatal loop error. -/
theorem error_logged_not_propagated_witness :
    join_result (.error ⟨"badbad".data⟩) = .ok () ∧
    thread_body (.error ⟨"badbad".data⟩) = (some ⟨"badbad".data⟩, ()) :=
  ⟨(error_logged_not_propagated (.error ⟨"badbad".data⟩)).1,
   (error_logged_not_propagated (.error ⟨"badbad".data⟩)).2 ⟨"badbad".data⟩ rfl⟩

/-- Claim C4: for all mount sets A (previous) and B (current), the computed
diff has `added` = elements of B absent from A and `removed` = elements of A
absent from B; the two parts are disjoint and together partition the
symmetric difference of A and B; and diffing a set against itself yields
`(empty, empty)`. -/
theorem mount_diff_partitions_symm_diff :
    ∀ A B : Finset LinuxMount,
      (∀ x, x ∈ (diff A B).1 ↔ x ∈ B ∧ x ∉ A) ∧
      (∀ x, x ∈ (diff A B).2 ↔ x ∈ A ∧ x ∉ B) ∧
      Disjoint (diff A B).1 (diff A B).2 ∧
      (diff A B).1 ∪ (diff A B).2 = symmDiff A B ∧
      diff A A = (∅, ∅) := by
  intro A B
  refine ⟨?_, ?_, ?_, ?_, ?_⟩
  · intro x
    simp [diff, Finset.mem_sdiff]
  · intro x
    simp [diff, Finset.mem_sdiff]
  · simp only [diff]
    exact disjoint_sdiff_sdiff
  · simp only [diff]
    rw [symmDiff_def, Finset.sup_eq_union, Finset.union_comm]
  · simp [diff, Finset.sdiff_self]

/-- Claim C2: while the state machine is coalescing, a trigger that is not
the timer expiry makes `check_diff` return `Continue` without reading or
parsing the mount table (the result does not depend on `content`), without
invoking the handler (it holds for every callback and the callback state is
untouched), and without changing any state-machine field (the returned state
is exactly the input state, timer included). -/
theorem coalescing_suppresses_non_timer_triggers :
    ∀ (σ : Type) (cb : σ → MountEvent → WatchControl × σ) (st : State σ)
      (content : List Char) (coalesced initial : Bool),
      st.coalescing = true → coalesced = false →
      check_diff cb st content coalesced initial = .ok (WatchControl.Continue, st) := by
  intro σ cb st content coalesced initial h1 h2
  subst h2
  exact check_diff_suppress cb st content initial h1

/-- Witness for C2 at a concrete coalescing state and arbitrary table. -/
theorem coalescing_suppresses_non_timer_triggers_witness :
    check_diff (cntCb fun _ => WatchControl.Continue) (⟨∅, 0, some 5, true⟩ : State Nat)
      "a b c d 0 0".data false false =
      .ok (WatchControl.Continue, (⟨∅, 0, some 5, true⟩ : State Nat)) :=
  coalescing_suppresses_non_timer_triggers Nat _ _ _ _ _ rfl rfl

/-- Claim C9: the closure returned by `callback::coalesce` returns
`Coalesce delay` without invoking the inner handler exactly when the event
qualifies — in `Coalesce` mode when `event.coalesced` is false, in
`PassImmediately` mode when `event.coalesced` and `event.initial` are both
false — and otherwise invokes the handler once on the event and returns its
decision (the last conjunct counts the single invocation). -/
theorem coalesce_callback_decision :
    ∀ (σ : Type) (delay : Nat) (f : σ → MountEvent → WatchControl × σ) (s : σ) (e : MountEvent),
      (e.coalesced = false →
        coalesce delay CoalesceInitial.Coalesce f s e = (WatchControl.Coalesce delay, s)) ∧
      (e.coalesced = true →
        coalesce delay CoalesceInitial.Coalesce f s e = f s e) ∧
      (e.coalesced = false → e.initial = false →
        coalesce delay CoalesceInitial.PassImmediately f s e = (WatchControl.Coalesce delay, s)) ∧
      (e.coalesced = true ∨ e.initial = true →
        coalesce delay CoalesceInitial.PassImmediately f s e = f s e) ∧
      (∀ g n, e.coalesced = true →
        coalesce delay CoalesceInitial.Coalesce (cntCb g) n e = (g e, n + 1)) := by
  intro σ delay f s e
  refine ⟨?_, ?_, ?_, ?_, ?_⟩
  · intro h
    simp [coalesce, h]
  · intro h
    simp [coalesce, h]
  · intro h1 h2
    simp [coalesce, h1, h2]
  · intro h
    rcases h with h | h <;> simp [coalesce, h]
  · intro g n h
    simp [coalesce, h, cntCb]

/-- Witness for C9 at a concrete non-coalesced event. -/
theorem coalesce_callback_decision_witness :
    coalesce 5 CoalesceInitial.Coalesce (cntCb fun _ => WatchControl.Stop) 0
      ⟨∅, ∅, false, false⟩ = (WatchControl.Coalesce 5, 0) :=
  (coalesce_callback_decision Nat 5 _ 0 ⟨∅, ∅, false, false⟩).1 rfl

end MountWatch
